import Mathlib

/-!
Verification of the Go (Weiqi) rule engine and game state machine.

The definitions below are a shallow embedding of the repository's
TypeScript sources:
  * `logic/GoRules.ts` (class `GoRules`): `getAdjacent`, `getGroup`,
    `checkCaptures`, `isValidMove`;
  * `App.tsx`: `executeMove`, `onBoardClick`, `performUndoAction`,
    `processPass`;
  * `types.ts`: `PlayerColor`, `Point`, `BoardState`, `HistoryEntry`,
    `GameState`.

Modelling conventions:
  * a JS `(PlayerColor | null)` cell is `Option PlayerColor`;
  * JS strings (the `JSON.stringify` board snapshots) are `List Char`;
  * the JS `Set<string>` keyed by the injective encoding `"x,y"` of a
    point is a duplicate-free `List Point` grown by `pushLib`;
  * JS array mutation on a freshly copied array (`board.map(row =>
    [...row])` followed by index assignment) is the pure update
    `setCell`;
  * the engine's `while (stack.length > 0)` worklist loop is the
    fuel-indexed `groupLoop`; `GROUP_FUEL` dominates the number of
    iterations the JS loop can perform on a 19x19 board, so the fuel
    never runs out on the boards the program manipulates.
-/

inductive PlayerColor where
  | black
  | white
deriving DecidableEq, Repr

/-- `player === 'black' ? 'white' : 'black'`. -/
def PlayerColor.opponent : PlayerColor → PlayerColor
  | .black => .white
  | .white => .black

structure Point where
  x : Nat
  y : Nat
deriving DecidableEq, Repr

abbrev Cell := Option PlayerColor

/-- `BoardState = (PlayerColor | null)[][]`, indexed `board[y][x]`. -/
abbrev BoardState := List (List Cell)

def BOARD_SIZE : Nat := 19

/-- `board[p.y][p.x]`; all reads performed by the engine are in range. -/
def cellAt (b : BoardState) (p : Point) : Cell :=
  (((b.get? p.y).getD []).get? p.x).getD none

/-- `newBoard[p.y][p.x] = c` performed on a fresh row copy. -/
def setCell (b : BoardState) (p : Point) (c : Cell) : BoardState :=
  b.set p.y (((b.get? p.y).getD []).set p.x c)

/-- `GoRules.getAdjacent`: up to 4 orthogonal in-range neighbors. -/
def getAdjacent (p : Point) : List Point :=
  (if p.x > 0 then [⟨p.x - 1, p.y⟩] else []) ++
  (if p.x < BOARD_SIZE - 1 then [⟨p.x + 1, p.y⟩] else []) ++
  (if p.y > 0 then [⟨p.x, p.y - 1⟩] else []) ++
  (if p.y < BOARD_SIZE - 1 then [⟨p.x, p.y + 1⟩] else [])

/-- Result shape of `GoRules.getGroup`. -/
structure StoneGroup where
  stones : List Point
  liberties : List Point
deriving DecidableEq, Repr

/-- `liberties.add(key)` on a `Set`: append unless already present. -/
def pushLib (libs : List Point) (a : Point) : List Point :=
  if a ∈ libs then libs else libs ++ [a]

/-- The `while (stack.length > 0)` loop of `GoRules.getGroup`.  The JS
loop pops the top of the stack; if unvisited it records the stone, adds
every empty neighbor to the liberty set and pushes every same-colored
neighbor.  The single JS neighbor scan is split into the independent
liberty fold and same-color filter; `.reverse` reproduces the JS
push/pop (LIFO) order.  Head of the list is the top of the stack. -/
def groupLoop (board : BoardState) (color : PlayerColor) :
    Nat → List Point → List Point → List Point → List Point → StoneGroup
  | 0, _, _, stones, libs => ⟨stones, libs⟩
  | _ + 1, [], _, stones, libs => ⟨stones, libs⟩
  | fuel + 1, current :: stack, visited, stones, libs =>
    if current ∈ visited then
      groupLoop board color fuel stack visited stones libs
    else
      let adjs := getAdjacent current
      let libs' := adjs.foldl
        (fun acc a => if cellAt board a = none then pushLib acc a else acc) libs
      let pushes := adjs.filter (fun a => cellAt board a = some color)
      groupLoop board color fuel (pushes.reverse ++ stack)
        (current :: visited) (stones ++ [current]) libs'

/-- Fuel bound dominating the iteration count of the worklist loop: each
iteration either discards a stack entry or visits a new board point and
pushes at most 4 entries. -/
def GROUP_FUEL : Nat := 5 * (BOARD_SIZE * BOARD_SIZE) + 1

/-- `GoRules.getGroup`: empty group on an empty point, otherwise a
depth-first flood fill from `p` over same-colored cells. -/
def getGroup (board : BoardState) (p : Point) : StoneGroup :=
  match cellAt board p with
  | none => ⟨[], []⟩
  | some color => groupLoop board color GROUP_FUEL [p] [] [] []

/-- `GoRules.checkCaptures`: for each neighbor of the placed stone still
holding an opponent stone on the (progressively mutated) board, remove
its group when it has no liberties and accumulate the capture count. -/
def checkCaptures (board : BoardState) (lastMove : Point)
    (player : PlayerColor) : BoardState × Nat :=
  let opponent := player.opponent
  (getAdjacent lastMove).foldl
    (fun acc adj =>
      if cellAt acc.1 adj = some opponent then
        let group := getGroup acc.1 adj
        if group.liberties.length = 0 then
          (group.stones.foldl (fun b s => setCell b s none) acc.1,
           acc.2 + group.stones.length)
        else acc
      else acc)
    (board, 0)

/-! ### The JSON board snapshot encoding

`App.tsx` snapshots boards with `JSON.stringify(board)` and compares /
restores them with string equality and `JSON.parse`.  `encodeBoard` is
exactly the `JSON.stringify` output of a `(PlayerColor | null)[][]`
value, as a list of characters; `decodeBoard` models `JSON.parse`
specialized to this grammar. -/

def encodeCell : Cell → List Char
  | some .black => ['"', 'b', 'l', 'a', 'c', 'k', '"']
  | some .white => ['"', 'w', 'h', 'i', 't', 'e', '"']
  | none => ['n', 'u', 'l', 'l']

def encodeCellsAux : List Cell → List Char
  | [] => [']']
  | [c] => encodeCell c ++ [']']
  | c :: c2 :: cs => encodeCell c ++ ',' :: encodeCellsAux (c2 :: cs)

def encodeRow (r : List Cell) : List Char := '[' :: encodeCellsAux r

def encodeRowsAux : List (List Cell) → List Char
  | [] => [']']
  | [r] => encodeRow r ++ [']']
  | r :: r2 :: rs => encodeRow r ++ ',' :: encodeRowsAux (r2 :: rs)

/-- `JSON.stringify(board)`. -/
def encodeBoard (b : BoardState) : List Char := '[' :: encodeRowsAux b

def decodeCell : List Char → Option (Cell × List Char)
  | '"' :: 'b' :: 'l' :: 'a' :: 'c' :: 'k' :: '"' :: rest =>
    some (some .black, rest)
  | '"' :: 'w' :: 'h' :: 'i' :: 't' :: 'e' :: '"' :: rest =>
    some (some .white, rest)
  | 'n' :: 'u' :: 'l' :: 'l' :: rest => some (none, rest)
  | _ => none

def decodeCellsAux : Nat → List Char → Option (List Cell × List Char)
  | _, ']' :: rest => some ([], rest)
  | fuel + 1, s =>
    match decodeCell s with
    | some (c, ',' :: r2) =>
      match decodeCellsAux fuel r2 with
      | some (cs, r3) => some (c :: cs, r3)
      | none => none
    | some (c, ']' :: r2) => some ([c], r2)
    | _ => none
  | 0, _ => none

def decodeRow : List Char → Option (List Cell × List Char)
  | '[' :: s => decodeCellsAux s.length s
  | _ => none

def decodeRowsAux : Nat → List Char → Option (List (List Cell) × List Char)
  | _, ']' :: rest => some ([], rest)
  | fuel + 1, s =>
    match decodeRow s with
    | some (r, ',' :: r2) =>
      match decodeRowsAux fuel r2 with
      | some (rs, r3) => some (r :: rs, r3)
      | none => none
    | some (r, ']' :: r2) => some ([r], r2)
    | _ => none
  | 0, _ => none

/-- `JSON.parse` specialized to the board grammar. -/
def decodeBoard : List Char → Option BoardState
  | '[' :: rest =>
    match decodeRowsAux rest.length rest with
    | some (b, []) => some b
    | _ => none
  | _ => none

/-! ### Move validation (`GoRules.isValidMove`) -/

inductive MoveError where
  | occupied
  | suicide
  | koViolation
deriving DecidableEq, Repr

/-- The `{ valid; error?; newBoard?; captured? }` result of
`GoRules.isValidMove`; the TS code populates `error` exactly on the
invalid paths and `newBoard`/`captured` exactly on the valid path. -/
inductive MoveResult where
  | invalid (error : MoveError)
  | legal (newBoard : BoardState) (captured : Nat)
deriving DecidableEq, Repr

/-- `GoRules.isValidMove`: occupancy, tentative placement, opponent
capture resolution, suicide check, then the single-step ko check
`history[history.length - 1] === JSON.stringify(newBoard)`. -/
def isValidMove (board : BoardState) (p : Point) (player : PlayerColor)
    (history : List (List Char)) : MoveResult :=
  if cellAt board p ≠ none then .invalid .occupied
  else
    let tempBoard := setCell board p (some player)
    let captureRes := checkCaptures tempBoard p player
    let newBoard := captureRes.1
    let ownGroup := getGroup newBoard p
    if ownGroup.liberties.length = 0 then .invalid .suicide
    else
      if history.getLast? = some (encodeBoard newBoard) then
        .invalid .koViolation
      else .legal newBoard captureRes.2

/-! ### Game state machine (`App.tsx`) -/

structure CapturedTally where
  black : Nat
  white : Nat
deriving DecidableEq, Repr

/-- `HistoryEntry` of `types.ts`: the pre-move snapshot pushed by
`executeMove` (`board` is the `JSON.stringify` of the pre-move board). -/
structure HistoryEntry where
  board : List Char
  captured : CapturedTally
  lastMove : Option Point
  player : PlayerColor
deriving DecidableEq, Repr

inductive Winner where
  | black
  | white
  | draw
deriving DecidableEq, Repr

/-- `GameState` of `types.ts`. -/
structure GameState where
  board : BoardState
  currentPlayer : PlayerColor
  captured : CapturedTally
  history : List HistoryEntry
  passCount : Nat
  gameOver : Bool
  winner : Option Winner
  lastMove : Option Point
deriving DecidableEq, Repr

/-- `executeMove` of `App.tsx` (the state-updater body; network send,
flash animations and message banners are presentation only).  On an
invalid move the updater returns `prev` unchanged. -/
def executeMove (s : GameState) (p : Point) : GameState :=
  match isValidMove s.board p s.currentPlayer
      (s.history.map HistoryEntry.board) with
  | .invalid _ => s
  | .legal newBoard capturedDelta =>
    let currentSnapshot : HistoryEntry :=
      { board := encodeBoard s.board
        captured := s.captured
        lastMove := s.lastMove
        player := s.currentPlayer }
    let nextPlayer := s.currentPlayer.opponent
    let updatedCaptured :=
      match s.currentPlayer with
      | .black => { s.captured with black := s.captured.black + capturedDelta }
      | .white => { s.captured with white := s.captured.white + capturedDelta }
    { s with
      board := newBoard
      currentPlayer := nextPlayer
      captured := updatedCaptured
      history := s.history ++ [currentSnapshot]
      passCount := 0
      lastMove := some p }

/-- The local move entry point: `onBoardClick` returns immediately when
`gameState.gameOver` and otherwise (after the tap-confirm UI step)
calls `executeMove`.  The purely presentational guards (pending undo
dialogs, turn hint, two-tap confirmation) are not part of the state
transition. -/
def submitMove (s : GameState) (p : Point) : GameState :=
  if s.gameOver then s else executeMove s p

/-- `performUndoAction` of `App.tsx`: pop the last history entry and
restore `board` (via `JSON.parse`), `captured`, `currentPlayer`,
`lastMove` from it; `passCount` is set to 0. -/
def performUndoAction (s : GameState) : GameState :=
  match s.history.getLast? with
  | none => s
  | some lastHistory =>
    { s with
      board := (decodeBoard lastHistory.board).getD []
      captured := lastHistory.captured
      currentPlayer := lastHistory.player
      lastMove := lastHistory.lastMove
      history := s.history.dropLast
      passCount := 0 }

/-- Stone count of one color, as in the `forEach` tally of
`processPass`. -/
def countStones (b : BoardState) (c : PlayerColor) : Nat :=
  b.foldl (fun acc row =>
    row.foldl (fun a cell => if cell = some c then a + 1 else a) acc) 0

/-- `processPass` of `App.tsx` (guarded by `if (gameState.gameOver)
return`): increment `passCount`, end the game at 2 with the
stones-plus-captures comparison, flip the player, clear `lastMove`. -/
def processPass (s : GameState) : GameState :=
  if s.gameOver then s
  else
    let nextPassCount := s.passCount + 1
    let isGameOver : Bool := nextPassCount ≥ 2
    let nextPlayer := s.currentPlayer.opponent
    let winnerInfo : Option Winner :=
      if isGameOver then
        let bt := countStones s.board .black + s.captured.black
        let wt := countStones s.board .white + s.captured.white
        some (if bt > wt then .black else if bt < wt then .white else .draw)
      else none
    { s with
      currentPlayer := nextPlayer
      passCount := nextPassCount
      gameOver := isGameOver
      lastMove := none
      winner := winnerInfo }

/-- The initial `MatchState` built in `App.tsx`. -/
def initialState : GameState :=
  { board := List.replicate BOARD_SIZE (List.replicate BOARD_SIZE none)
    currentPlayer := .black
    captured := { black := 0, white := 0 }
    history := []
    passCount := 0
    gameOver := false
    winner := none
    lastMove := none }

/-! ### Spec-level connectivity

`Reaches board color p q` holds when `q` can be reached from `p` by
steps over 4-adjacent points carrying `color` stones; together with a
colored start point it describes the maximal connected same-color
component used by the specification to talk about groups. -/

inductive Reaches (board : BoardState) (color : PlayerColor) :
    Point → Point → Prop
  | refl (p : Point) : Reaches board color p p
  | tail {p q r : Point} : Reaches board color p q → r ∈ getAdjacent q →
      cellAt board r = some color → Reaches board color p r

/-- All in-range points of the 19x19 grid. -/
def allPoints : List Point :=
  (List.range BOARD_SIZE).flatMap
    (fun y => (List.range BOARD_SIZE).map (fun x => ⟨x, y⟩))

/-- The board-shape invariant of the data model: 19 rows of 19 cells. -/
def isValidBoard (b : BoardState) : Prop :=
  b.length = BOARD_SIZE ∧ ∀ r ∈ b, r.length = BOARD_SIZE

instance (b : BoardState) : Decidable (isValidBoard b) := by
  unfold isValidBoard; infer_instance

/-- Number of board points not yet visited; the decreasing measure of
the flood-fill loop. -/
def unvisitedCount (visited : List Point) : Nat :=
  (allPoints.filter (fun q => decide (q ∉ visited))).length

/-- Number of cells on which `b` differs from `orig`; when `b` is the
result of capture resolution over `orig` this is the number of removed
stones. -/
def changedCount (b orig : BoardState) : Nat :=
  (allPoints.filter (fun q => decide (cellAt b q ≠ cellAt orig q))).length

/-! ### The capture predicate (specification level) -/

/-- The connected component of `a` (in `color`) has no liberties: no
empty point is orthogonally adjacent to any of its stones. -/
def compNoLiberty (board : BoardState) (color : PlayerColor)
    (a : Point) : Prop :=
  ¬ ∃ l q, Reaches board color a q ∧ l ∈ getAdjacent q ∧
    cellAt board l = none

/-- `q` is a stone of a zero-liberty `opp`-colored group rooted at one
of the points of `done`. -/
def capturedByList (board : BoardState) (opp : PlayerColor)
    (done : List Point) (q : Point) : Prop :=
  ∃ a ∈ done, cellAt board a = some opp ∧ compNoLiberty board opp a ∧
    Reaches board opp a q

/-- `q` is a stone of an opponent-colored group adjacent to the placed
stone whose liberty count is zero: exactly the stones capture
resolution must remove. -/
def capturedBy (board : BoardState) (placedAt : Point)
    (player : PlayerColor) (q : Point) : Prop :=
  capturedByList board player.opponent (getAdjacent placedAt) q

/-- One iteration of the `checkCaptures` loop body. -/
def captureStep (opp : PlayerColor) (acc : BoardState × Nat)
    (adj : Point) : BoardState × Nat :=
  if cellAt acc.1 adj = some opp then
    let group := getGroup acc.1 adj
    if group.liberties.length = 0 then
      (group.stones.foldl (fun b s => setCell b s none) acc.1,
       acc.2 + group.stones.length)
    else acc
  else acc

/-- Board of the capture scenario: black has just played at `(0,0)`;
the white stone at `(1,0)` has no liberties, the white stone at `(0,1)`
still has one. -/
def captureExampleBoard : BoardState :=
  setCell (setCell (setCell (setCell (setCell initialState.board
    ⟨1, 0⟩ (some .white)) ⟨0, 1⟩ (some .white)) ⟨2, 0⟩ (some .black))
    ⟨1, 1⟩ (some .black)) ⟨0, 0⟩ (some .black)

/-- Pre-move board of the snapback example: white stones at `(1,0)` and
`(0,1)`, black stones at `(2,0)` and `(1,1)`; `(0,0)` is empty and
gives the white stone at `(1,0)` its single liberty. -/
def snapbackBefore : BoardState :=
  setCell (setCell (setCell (setCell initialState.board
    ⟨1, 0⟩ (some .white)) ⟨0, 1⟩ (some .white)) ⟨2, 0⟩ (some .black))
    ⟨1, 1⟩ (some .black)

/-- Board after black plays the capture at `(0,0)`: the white stone at
`(1,0)` is removed, freeing a liberty for the new black stone. -/
def snapbackAfter : BoardState :=
  setCell (setCell (setCell (setCell initialState.board
    ⟨0, 1⟩ (some .white)) ⟨2, 0⟩ (some .black)) ⟨1, 1⟩ (some .black))
    ⟨0, 0⟩ (some .black)

/-! ### Helper lemmas: the JSON snapshot encoding is lossless -/

lemma decodeCell_encodeCell (c : Cell) (t : List Char) :
    decodeCell (encodeCell c ++ t) = some (c, t) := by
  cases c with
  | none => rfl
  | some pc => cases pc <;> rfl

lemma length_le_encodeCellsAux (cs : List Cell) :
    cs.length ≤ (encodeCellsAux cs).length := by
  induction cs with
  | nil => simp [encodeCellsAux]
  | cons c cs ih =>
    cases cs with
    | nil => cases c with
      | none => simp [encodeCellsAux, encodeCell]
      | some pc => cases pc <;> simp [encodeCellsAux, encodeCell]
    | cons c2 cs' =>
      have : (encodeCell c).length ≥ 1 := by
        cases c with
        | none => simp [encodeCell]
        | some pc => cases pc <;> simp [encodeCell]
      simp only [List.length_cons] at ih ⊢
      simp only [encodeCellsAux, List.length_append, List.length_cons]
      omega

lemma decodeCellsAux_cons_step (f : Nat) (c : Cell) (rest : List Char) :
    decodeCellsAux (f + 1) (encodeCell c ++ ',' :: rest) =
      match decodeCellsAux f rest with
      | some (cs, r3) => some (c :: cs, r3)
      | none => none := by
  cases c with
  | none => rfl
  | some pc => cases pc <;> rfl

lemma decodeCellsAux_encode (cs : List Cell) :
    ∀ (t : List Char) (fuel : Nat), cs.length ≤ fuel →
      decodeCellsAux fuel (encodeCellsAux cs ++ t) = some (cs, t) := by
  induction cs with
  | nil => intro t fuel _; cases fuel <;> rfl
  | cons c cs ih =>
    intro t fuel hf
    cases fuel with
    | zero => simp at hf
    | succ f =>
      cases cs with
      | nil =>
        cases c with
        | none => rfl
        | some pc => cases pc <;> rfl
      | cons c2 cs' =>
        have hlen : (c2 :: cs').length ≤ f := by
          simp only [List.length_cons] at hf ⊢; omega
        have hsplit : encodeCellsAux (c :: c2 :: cs') ++ t =
            encodeCell c ++ ',' :: (encodeCellsAux (c2 :: cs') ++ t) := by
          simp [encodeCellsAux]
        rw [hsplit, decodeCellsAux_cons_step, ih t f hlen]

lemma decodeRow_encodeRow (r : List Cell) (t : List Char) :
    decodeRow (encodeRow r ++ t) = some (r, t) := by
  have : encodeRow r ++ t = '[' :: (encodeCellsAux r ++ t) := by
    simp [encodeRow]
  rw [this]
  show decodeCellsAux (encodeCellsAux r ++ t).length (encodeCellsAux r ++ t) =
    some (r, t)
  exact decodeCellsAux_encode r t _
    (le_trans (length_le_encodeCellsAux r) (by simp))

lemma decodeRowsAux_bracket (f : Nat) (x : List Char) :
    decodeRowsAux (f + 1) ('[' :: x) =
      match decodeRow ('[' :: x) with
      | some (r, ',' :: r2) =>
        (match decodeRowsAux f r2 with
         | some (rs, r3) => some (r :: rs, r3)
         | none => none)
      | some (r, ']' :: r2) => some ([r], r2)
      | _ => none := rfl

lemma decodeRowsAux_encode (rs : List (List Cell)) :
    ∀ (t : List Char) (fuel : Nat), rs.length ≤ fuel →
      decodeRowsAux fuel (encodeRowsAux rs ++ t) = some (rs, t) := by
  induction rs with
  | nil => intro t fuel _; cases fuel <;> rfl
  | cons r rs ih =>
    intro t fuel hf
    cases fuel with
    | zero => simp at hf
    | succ f =>
      cases rs with
      | nil =>
        have hsplit : encodeRowsAux [r] ++ t = '[' :: (encodeCellsAux r ++ ']' :: t) := by
          simp [encodeRowsAux, encodeRow]
        have hrow : decodeRow ('[' :: (encodeCellsAux r ++ ']' :: t)) = some (r, ']' :: t) := by
          have h2 : ('[' : Char) :: (encodeCellsAux r ++ ']' :: t) = encodeRow r ++ ']' :: t := by
            simp [encodeRow]
          rw [h2, decodeRow_encodeRow]
        rw [hsplit, decodeRowsAux_bracket, hrow]
        rfl
      | cons r2 rs' =>
        have hlen : (r2 :: rs').length ≤ f := by
          simp only [List.length_cons] at hf ⊢; omega
        have hsplit : encodeRowsAux (r :: r2 :: rs') ++ t =
            '[' :: (encodeCellsAux r ++ ',' :: (encodeRowsAux (r2 :: rs') ++ t)) := by
          simp [encodeRowsAux, encodeRow]
        have hrow : decodeRow ('[' :: (encodeCellsAux r ++ ',' :: (encodeRowsAux (r2 :: rs') ++ t))) =
            some (r, ',' :: (encodeRowsAux (r2 :: rs') ++ t)) := by
          have h2 : ('[' : Char) :: (encodeCellsAux r ++ ',' :: (encodeRowsAux (r2 :: rs') ++ t)) =
              encodeRow r ++ ',' :: (encodeRowsAux (r2 :: rs') ++ t) := by
            simp [encodeRow]
          rw [h2, decodeRow_encodeRow]
        rw [hsplit, decodeRowsAux_bracket, hrow]
        show (match decodeRowsAux f (encodeRowsAux (r2 :: rs') ++ t) with
          | some (rs, r3) => some (r :: rs, r3)
          | none => none) = some (r :: r2 :: rs', t)
        rw [ih t f hlen]

lemma length_le_encodeRowsAux (rs : List (List Cell)) :
    rs.length ≤ (encodeRowsAux rs).length := by
  induction rs with
  | nil => simp [encodeRowsAux]
  | cons r rs ih =>
    cases rs with
    | nil => simp [encodeRowsAux, encodeRow]
    | cons r2 rs' =>
      simp only [List.length_cons] at ih ⊢
      simp only [encodeRowsAux, encodeRow, List.length_append, List.length_cons]
      omega

lemma decodeBoard_encodeBoard (b : BoardState) :
    decodeBoard (encodeBoard b) = some b := by
  show (match decodeRowsAux (encodeRowsAux b).length (encodeRowsAux b) with
    | some (bd, []) => some bd
    | _ => none) = some b
  have h1 : encodeRowsAux b = encodeRowsAux b ++ [] := by simp
  conv_lhs => rw [h1]
  rw [decodeRowsAux_encode b [] _ (by simpa using length_le_encodeRowsAux b)]

lemma encodeBoard_injective : Function.Injective encodeBoard := by
  intro b1 b2 h
  have h2 := congrArg decodeBoard h
  rw [decodeBoard_encodeBoard, decodeBoard_encodeBoard] at h2
  exact Option.some_injective _ h2

/-! ### Claim C10 -/

/-- C10: the JSON-string board encoding used for history snapshots and
the ko comparison is lossless and injective: `JSON.parse` inverts
`JSON.stringify` on every board, and two boards have equal JSON strings
exactly when they are structurally equal. -/
theorem board_encoding_lossless_injective (b b' : BoardState) :
    decodeBoard (encodeBoard b) = some b ∧
    (encodeBoard b = encodeBoard b' ↔ b = b') :=
  ⟨decodeBoard_encodeBoard b,
   ⟨fun h => encodeBoard_injective h, fun h => by rw [h]⟩⟩

/-! ### Claim C2 -/

/-- C2: when the match is terminal (`gameOver` set), submitting a move
is a no-op: the state is returned unchanged for every point. -/
theorem submitMove_terminal_noop (s : GameState) (p : Point)
    (h : s.gameOver = true) : submitMove s p = s := by
  simp [submitMove, h]

theorem submitMove_terminal_noop_witness :
    ({ initialState with gameOver := true } : GameState).gameOver = true ∧
    submitMove { initialState with gameOver := true } ⟨3, 3⟩ =
      { initialState with gameOver := true } :=
  ⟨rfl, submitMove_terminal_noop { initialState with gameOver := true } ⟨3, 3⟩ rfl⟩

/-! ### Claim C3 -/

/-- A pass on a terminal state is a no-op. -/
lemma processPass_terminal (s : GameState) (h : s.gameOver = true) :
    processPass s = s := by
  simp [processPass, h]

/-- Field-level description of a single pass from a live state. -/
lemma processPass_fields (s : GameState) (h : s.gameOver = false) :
    (processPass s).board = s.board ∧
    (processPass s).captured = s.captured ∧
    (processPass s).currentPlayer = s.currentPlayer.opponent ∧
    (processPass s).passCount = s.passCount + 1 ∧
    (processPass s).lastMove = none ∧
    (processPass s).gameOver = decide (s.passCount + 1 ≥ 2) ∧
    (processPass s).winner =
      (if s.passCount + 1 ≥ 2 then
        some (if countStones s.board .black + s.captured.black >
                countStones s.board .white + s.captured.white then Winner.black
              else if countStones s.board .black + s.captured.black <
                countStones s.board .white + s.captured.white then Winner.white
              else Winner.draw)
       else none) := by
  simp [processPass, h]

/-- C3: from a non-terminal state, two consecutive passes end the game
with the winner decided by comparing `stonesOnBoard(color) +
captured(color)` (draw on a tie), and a single pass that does not end
the game flips the player, increments the pass counter and clears the
last-move marker. -/
theorem processPass_spec (s : GameState) (h : s.gameOver = false) :
    (((processPass (processPass s)).gameOver = true) ∧
     (countStones s.board .black + s.captured.black >
        countStones s.board .white + s.captured.white →
        (processPass (processPass s)).winner = some .black) ∧
     (countStones s.board .white + s.captured.white >
        countStones s.board .black + s.captured.black →
        (processPass (processPass s)).winner = some .white) ∧
     (countStones s.board .black + s.captured.black =
        countStones s.board .white + s.captured.white →
        (processPass (processPass s)).winner = some .draw)) ∧
    ((processPass s).gameOver = false →
      (processPass s).currentPlayer = s.currentPlayer.opponent ∧
      (processPass s).passCount = s.passCount + 1 ∧
      (processPass s).lastMove = none) := by
  obtain ⟨hb1, hc1, hp1, hn1, hl1, hg1, hw1⟩ := processPass_fields s h
  by_cases hz : s.passCount = 0
  · have hg1' : (processPass s).gameOver = false := by
      rw [hg1, hz]; decide
    obtain ⟨hb2, hc2, hp2, hn2, hl2, hg2, hw2⟩ :=
      processPass_fields (processPass s) hg1'
    have hn1' : (processPass s).passCount = 1 := by rw [hn1, hz]
    have hgo : (processPass (processPass s)).gameOver = true := by
      rw [hg2, hn1']; decide
    have hwin : (processPass (processPass s)).winner =
        some (if countStones s.board .black + s.captured.black >
                countStones s.board .white + s.captured.white then Winner.black
              else if countStones s.board .black + s.captured.black <
                countStones s.board .white + s.captured.white then Winner.white
              else Winner.draw) := by
      rw [hw2, hb1, hc1, hn1']
      simp
    refine ⟨⟨hgo, ?_, ?_, ?_⟩, fun _ => ⟨hp1, hn1, hl1⟩⟩
    · intro hbt; rw [hwin, if_pos hbt]
    · intro hwt
      rw [hwin, if_neg (by omega), if_pos (by omega)]
    · intro heq
      rw [hwin, if_neg (by omega), if_neg (by omega)]
  · have hg1' : (processPass s).gameOver = true := by
      rw [hg1]; simp; omega
    have hstop : processPass (processPass s) = processPass s :=
      processPass_terminal _ hg1'
    have hwin : (processPass s).winner =
        some (if countStones s.board .black + s.captured.black >
                countStones s.board .white + s.captured.white then Winner.black
              else if countStones s.board .black + s.captured.black <
                countStones s.board .white + s.captured.white then Winner.white
              else Winner.draw) := by
      rw [hw1, if_pos (by omega)]
    refine ⟨⟨by rw [hstop]; exact hg1', ?_, ?_, ?_⟩, fun hcon => ?_⟩
    · intro hbt; rw [hstop, hwin, if_pos hbt]
    · intro hwt; rw [hstop, hwin, if_neg (by omega), if_pos (by omega)]
    · intro heq; rw [hstop, hwin, if_neg (by omega), if_neg (by omega)]
    · rw [hg1'] at hcon; cases hcon

set_option maxRecDepth 40000 in
theorem processPass_spec_witness :
    initialState.gameOver = false ∧
    (processPass (processPass initialState)).gameOver = true ∧
    (processPass (processPass initialState)).winner = some .draw ∧
    (processPass initialState).currentPlayer = PlayerColor.white ∧
    (processPass initialState).passCount = 1 := by
  have hs := processPass_spec initialState rfl
  exact ⟨rfl, hs.1.1, hs.1.2.2.2 (by decide),
    (hs.2 (by decide)).1, (hs.2 (by decide)).2.1⟩

/-! ### Claim C8 -/

/-- C8: submitting a move from a non-terminal state either (legal case)
appends a snapshot of the pre-move state to the history (so its length
grows by exactly one), flips the player, credits the capture count to
the acting color's tally, resets the pass counter and records the last
move, or (illegal case) leaves the state completely unchanged. -/
theorem submitMove_effects (s : GameState) (p : Point)
    (h : s.gameOver = false) :
    (∀ e, isValidMove s.board p s.currentPlayer
        (s.history.map HistoryEntry.board) = .invalid e →
      submitMove s p = s) ∧
    (∀ nb cap, isValidMove s.board p s.currentPlayer
        (s.history.map HistoryEntry.board) = .legal nb cap →
      (submitMove s p).history = s.history ++
        [{ board := encodeBoard s.board, captured := s.captured,
           lastMove := s.lastMove, player := s.currentPlayer }] ∧
      (submitMove s p).history.length = s.history.length + 1 ∧
      (submitMove s p).board = nb ∧
      (submitMove s p).currentPlayer = s.currentPlayer.opponent ∧
      (submitMove s p).passCount = 0 ∧
      (submitMove s p).lastMove = some p ∧
      (s.currentPlayer = .black →
        (submitMove s p).captured =
          { black := s.captured.black + cap, white := s.captured.white }) ∧
      (s.currentPlayer = .white →
        (submitMove s p).captured =
          { black := s.captured.black, white := s.captured.white + cap })) := by
  have hsub : submitMove s p = executeMove s p := by simp [submitMove, h]
  constructor
  · intro e he
    rw [hsub]
    unfold executeMove
    rw [he]
  · intro nb cap hv
    rw [hsub]
    unfold executeMove
    rw [hv]
    refine ⟨rfl, by simp, rfl, rfl, rfl, rfl, ?_, ?_⟩
    · intro hc; rw [hc]
    · intro hc; rw [hc]

set_option maxRecDepth 40000 in
theorem submitMove_effects_witness :
    initialState.gameOver = false ∧
    (submitMove initialState ⟨0, 0⟩).history.length =
      initialState.history.length + 1 ∧
    (submitMove initialState ⟨0, 0⟩).currentPlayer = PlayerColor.white ∧
    (submitMove initialState ⟨0, 0⟩).passCount = 0 ∧
    (submitMove initialState ⟨0, 0⟩).lastMove = some ⟨0, 0⟩ := by
  have hs := (submitMove_effects initialState ⟨0, 0⟩ rfl).2
    (setCell initialState.board ⟨0, 0⟩ (some .black)) 0 (by decide)
  exact ⟨rfl, hs.2.1, hs.2.2.2.1, hs.2.2.2.2.1, hs.2.2.2.2.2.1⟩

/-! ### Claim C1 (corrected) -/

set_option maxRecDepth 100000 in
/-- C1 counterexample: from a pre-move state with `passCount = 1`
(one pass, then a legal move), `performUndoAction` after the move does
not restore the original state: the pass counter is reset to 0 instead
of being restored to 1. -/
theorem undo_roundtrip_counterexample :
    performUndoAction
        (submitMove { initialState with passCount := 1 } ⟨0, 0⟩) ≠
      { initialState with passCount := 1 } := by
  intro hcon
  have := congrArg GameState.passCount hcon
  rw [show (performUndoAction
      (submitMove { initialState with passCount := 1 } ⟨0, 0⟩)).passCount = 0
    from by decide] at this
  cases this

/-- C1 amended: undoing immediately after a legal move restores
`board`, `currentPlayer`, `captured`, `history` and `lastMove` to their
exact pre-move values, but resets `passCount`/`consecutivePasses` to 0
rather than restoring it; the round trip therefore reproduces the
pre-move state exactly if and only if that state had `passCount = 0`. -/
theorem submitMove_undo_amended (s : GameState) (p : Point)
    (hg : s.gameOver = false) (nb : BoardState) (cap : Nat)
    (hv : isValidMove s.board p s.currentPlayer
      (s.history.map HistoryEntry.board) = .legal nb cap) :
    performUndoAction (submitMove s p) = { s with passCount := 0 } ∧
    (performUndoAction (submitMove s p) = s ↔ s.passCount = 0) := by
  have hsub : submitMove s p = executeMove s p := by simp [submitMove, hg]
  have hmain : performUndoAction (submitMove s p) = { s with passCount := 0 } := by
    rw [hsub]
    unfold executeMove
    rw [hv]
    unfold performUndoAction
    simp [List.getLast?_concat, List.dropLast_concat, decodeBoard_encodeBoard]
  refine ⟨hmain, ?_, ?_⟩
  · intro heq
    rw [hmain] at heq
    have h2 := congrArg GameState.passCount heq
    simpa using h2.symm
  · intro hp
    rw [hmain]
    cases s
    simp_all

set_option maxRecDepth 100000 in
theorem submitMove_undo_amended_witness :
    performUndoAction (submitMove initialState ⟨0, 0⟩) = initialState := by
  have hs := submitMove_undo_amended initialState ⟨0, 0⟩ rfl
    (setCell initialState.board ⟨0, 0⟩ (some .black)) 0 (by decide)
  exact hs.2.mpr rfl

lemma pointEq {a b : Point} : a = b ↔ a.x = b.x ∧ a.y = b.y := by
  cases a; cases b; simp

lemma mem_allPoints {q : Point} :
    q ∈ allPoints ↔ q.x < BOARD_SIZE ∧ q.y < BOARD_SIZE := by
  unfold allPoints
  simp only [List.mem_flatMap, List.mem_map, List.mem_range]
  constructor
  · rintro ⟨y, hy, x, hx, rfl⟩; exact ⟨hx, hy⟩
  · rintro ⟨hx, hy⟩; exact ⟨q.y, hy, q.x, hx, by cases q; rfl⟩

lemma allPoints_nodup : allPoints.Nodup := by
  unfold allPoints
  rw [List.nodup_flatMap]
  constructor
  · intro y _
    have hinj : Function.Injective (fun x => (⟨x, y⟩ : Point)) := by
      intro a b hab
      simpa using congrArg Point.x hab
    exact (List.nodup_range _).map hinj
  · have hlt := List.pairwise_lt_range BOARD_SIZE
    apply hlt.imp
    intro y1 y2 hlt12
    intro a ha hb
    simp only [List.mem_map] at ha hb
    obtain ⟨x1, _, rfl⟩ := ha
    obtain ⟨x2, _, h2⟩ := hb
    have : y2 = y1 := by simpa using congrArg Point.y h2
    omega

lemma cellAt_ne_none_mem_allPoints {b : BoardState} {q : Point}
    (hvb : isValidBoard b) (hq : cellAt b q ≠ none) : q ∈ allPoints := by
  obtain ⟨hlen, hrows⟩ := hvb
  rw [mem_allPoints]
  unfold cellAt at hq
  have hx : q.x < ((b.get? q.y).getD []).length := by
    by_contra hx
    rw [List.get?_eq_none.mpr (by omega)] at hq
    exact hq rfl
  have hy : q.y < b.length := by
    by_contra hy
    rw [List.get?_eq_none.mpr (by omega)] at hx
    simp at hx
  rw [List.get?_eq_get hy] at hx
  simp only [Option.getD_some] at hx
  have hmem := b.get_mem q.y hy
  rw [hrows _ hmem] at hx
  rw [hlen] at hy
  exact ⟨hx, hy⟩

lemma mem_getAdjacent {a p : Point} :
    a ∈ getAdjacent p ↔
      ((a.x + 1 = p.x ∧ a.y = p.y) ∨
       (a.x = p.x + 1 ∧ a.x ≤ BOARD_SIZE - 1 ∧ a.y = p.y) ∨
       (a.y + 1 = p.y ∧ a.x = p.x) ∨
       (a.y = p.y + 1 ∧ a.y ≤ BOARD_SIZE - 1 ∧ a.x = p.x)) := by
  unfold getAdjacent BOARD_SIZE
  simp only [List.mem_append, List.mem_ite_nil_right, List.mem_singleton, pointEq]
  constructor
  · rintro (((⟨h1, h2, h3⟩ | ⟨h1, h2, h3⟩) | ⟨h1, h2, h3⟩) | ⟨h1, h2, h3⟩) <;> omega
  · intro h
    rcases h with ⟨h1, h2⟩ | ⟨h1, h2, h3⟩ | ⟨h1, h2⟩ | ⟨h1, h2, h3⟩
    · exact Or.inl (Or.inl (Or.inl ⟨by omega, by omega, by omega⟩))
    · exact Or.inl (Or.inl (Or.inr ⟨by omega, by omega, by omega⟩))
    · exact Or.inl (Or.inr ⟨by omega, by omega, by omega⟩)
    · exact Or.inr ⟨by omega, by omega, by omega⟩

lemma adj_symm {p q : Point} (hp : p ∈ allPoints) (hq : q ∈ allPoints) :
    q ∈ getAdjacent p ↔ p ∈ getAdjacent q := by
  rw [mem_allPoints] at hp hq
  rw [mem_getAdjacent, mem_getAdjacent]
  unfold BOARD_SIZE at *
  omega

lemma getAdjacent_length_le (p : Point) : (getAdjacent p).length ≤ 4 := by
  unfold getAdjacent
  split_ifs <;> simp

lemma reaches_trans {board : BoardState} {color : PlayerColor} {p q r : Point}
    (h1 : Reaches board color p q) (h2 : Reaches board color q r) :
    Reaches board color p r := by
  induction h2 with
  | refl => exact h1
  | tail _ hadj hc ih => exact .tail ih hadj hc

lemma reaches_color {board : BoardState} {color : PlayerColor} {p q : Point}
    (h : Reaches board color p q) (hp : cellAt board p = some color) :
    cellAt board q = some color := by
  induction h with
  | refl => exact hp
  | tail _ _ hc _ => exact hc

lemma reaches_symm {board : BoardState} {color : PlayerColor} {p q : Point}
    (hin : ∀ r, cellAt board r = some color → r ∈ allPoints)
    (hp : cellAt board p = some color)
    (h : Reaches board color p q) : Reaches board color q p := by
  induction h with
  | refl => exact .refl p
  | tail h1 hadj hc ih =>
    have hqc := reaches_color h1 hp
    have hstep : Reaches board color _ _ :=
      .tail (.refl _) ((adj_symm (hin _ hc) (hin _ hqc)).mpr hadj) hqc
    exact reaches_trans hstep ih

lemma reaches_subset_closed {board : BoardState} {color : PlayerColor}
    {V : List Point} {p : Point} (hp : p ∈ V)
    (hclosed : ∀ q ∈ V, ∀ r ∈ getAdjacent q,
      cellAt board r = some color → r ∈ V) :
    ∀ q, Reaches board color p q → q ∈ V := by
  intro q h
  induction h with
  | refl => exact hp
  | tail _ hadj hc ih => exact hclosed _ ih _ hadj hc

lemma pushLib_mem {libs : List Point} {x a : Point} :
    a ∈ pushLib libs x ↔ a ∈ libs ∨ a = x := by
  unfold pushLib
  split_ifs with h
  · constructor
    · exact fun ha => Or.inl ha
    · rintro (ha | rfl)
      · exact ha
      · exact h
  · simp

lemma pushLib_nodup {libs : List Point} {x : Point} (h : libs.Nodup) :
    (pushLib libs x).Nodup := by
  unfold pushLib
  split_ifs with hmem
  · exact h
  · rw [List.nodup_append]
    exact ⟨h, List.nodup_singleton x, by
      intro a ha hb
      rw [List.mem_singleton] at hb
      exact hmem (hb ▸ ha)⟩

lemma libsFold_mem (board : BoardState) (adjs : List Point) :
    ∀ (libs : List Point) (a : Point),
      a ∈ adjs.foldl
        (fun acc x => if cellAt board x = none then pushLib acc x else acc)
        libs ↔
      a ∈ libs ∨ (a ∈ adjs ∧ cellAt board a = none) := by
  induction adjs with
  | nil => intro libs a; simp
  | cons x xs ih =>
    intro libs a
    simp only [List.foldl_cons]
    by_cases hx : cellAt board x = none
    · rw [if_pos hx, ih]
      rw [pushLib_mem]
      constructor
      · rintro ((ha | rfl) | ⟨hxs, hnone⟩)
        · exact Or.inl ha
        · exact Or.inr ⟨List.mem_cons_self _ _, hx⟩
        · exact Or.inr ⟨List.mem_cons_of_mem _ hxs, hnone⟩
      · rintro (ha | ⟨hmem, hnone⟩)
        · exact Or.inl (Or.inl ha)
        · rcases List.mem_cons.mp hmem with rfl | hxs
          · exact Or.inl (Or.inr rfl)
          · exact Or.inr ⟨hxs, hnone⟩
    · rw [if_neg hx, ih]
      constructor
      · rintro (ha | ⟨hxs, hnone⟩)
        · exact Or.inl ha
        · exact Or.inr ⟨List.mem_cons_of_mem _ hxs, hnone⟩
      · rintro (ha | ⟨hmem, hnone⟩)
        · exact Or.inl ha
        · rcases List.mem_cons.mp hmem with rfl | hxs
          · exact absurd hnone hx
          · exact Or.inr ⟨hxs, hnone⟩

lemma libsFold_nodup (board : BoardState) (adjs : List Point) :
    ∀ (libs : List Point), libs.Nodup →
      (adjs.foldl
        (fun acc x => if cellAt board x = none then pushLib acc x else acc)
        libs).Nodup := by
  induction adjs with
  | nil => intro libs h; simpa using h
  | cons x xs ih =>
    intro libs h
    simp only [List.foldl_cons]
    by_cases hx : cellAt board x = none
    · rw [if_pos hx]; exact ih _ (pushLib_nodup h)
    · rw [if_neg hx]; exact ih _ h

lemma filter_not_mem_length (current : Point) (visited : List Point)
    (hnv : current ∉ visited) :
    ∀ (l : List Point), l.Nodup → current ∈ l →
      (l.filter (fun q => decide (q ∉ visited))).length =
        (l.filter (fun q => decide (q ∉ current :: visited))).length + 1 := by
  intro l
  induction l with
  | nil => intro _ h; cases h
  | cons y l ih =>
    intro hnd hmem
    have hndl : l.Nodup := hnd.of_cons
    by_cases hy : y = current
    · subst hy
      have hyl : y ∉ l := (List.nodup_cons.mp hnd).1
      have hfeq : l.filter (fun q => decide (q ∉ visited)) =
          l.filter (fun q => decide (q ∉ y :: visited)) := by
        apply List.filter_congr
        intro a ha
        have hay : a ≠ y := fun hcon => hyl (hcon ▸ ha)
        simp [List.mem_cons, hay]
      simp only [List.filter_cons]
      rw [if_pos (by simpa using hnv), if_neg (by simp)]
      simp only [List.length_cons]
      rw [hfeq]
    · have hmem' : current ∈ l := by
        rcases List.mem_cons.mp hmem with h | h
        · exact absurd h.symm hy
        · exact h
      have hrec := ih hndl hmem'
      simp only [List.filter_cons]
      by_cases hyv : y ∈ visited
      · rw [if_neg (by simpa using hyv), if_neg (by simp [List.mem_cons, hyv])]
        exact hrec
      · rw [if_pos (by simpa using hyv),
          if_pos (by simp [List.mem_cons, hyv, hy])]
        simp only [List.length_cons]
        omega

lemma unvisitedCount_cons {current : Point} {visited : List Point}
    (hc : current ∈ allPoints) (hnv : current ∉ visited) :
    unvisitedCount visited = unvisitedCount (current :: visited) + 1 :=
  filter_not_mem_length current visited hnv allPoints allPoints_nodup hc

lemma groupLoop_base {board : BoardState} {color : PlayerColor} {p : Point}
    {visited stones libs : List Point}
    (hvs : ∀ q, q ∈ stones ↔ q ∈ visited)
    (hclosed : ∀ q ∈ visited, ∀ r ∈ getAdjacent q,
      cellAt board r = some color → r ∈ visited)
    (hlibs : ∀ a, a ∈ libs ↔
      ∃ q ∈ visited, a ∈ getAdjacent q ∧ cellAt board a = none)
    (hnd1 : stones.Nodup) (hnd2 : libs.Nodup)
    (hreach : ∀ q ∈ visited, Reaches board color p q)
    (hp : p ∈ visited) :
    (∀ q, q ∈ stones ↔ Reaches board color p q) ∧
    (∀ a, a ∈ libs ↔
      (cellAt board a = none ∧
       ∃ q, Reaches board color p q ∧ a ∈ getAdjacent q)) ∧
    stones.Nodup ∧ libs.Nodup := by
  have hVreach : ∀ q, q ∈ visited ↔ Reaches board color p q :=
    fun q => ⟨hreach q, reaches_subset_closed hp hclosed q⟩
  refine ⟨fun q => (hvs q).trans (hVreach q), ?_, hnd1, hnd2⟩
  intro a
  rw [hlibs a]
  constructor
  · rintro ⟨q, hqv, hadj, hnone⟩
    exact ⟨hnone, q, (hVreach q).mp hqv, hadj⟩
  · rintro ⟨hnone, q, hr, hadj⟩
    exact ⟨q, (hVreach q).mpr hr, hadj, hnone⟩

theorem groupLoop_correct (board : BoardState) (color : PlayerColor)
    (p : Point)
    (hin : ∀ q, cellAt board q = some color → q ∈ allPoints) :
    ∀ (fuel : Nat) (stack visited stones libs : List Point),
      5 * unvisitedCount visited + stack.length ≤ fuel →
      (∀ q ∈ stack, cellAt board q = some color) →
      (∀ q ∈ visited, cellAt board q = some color) →
      (∀ q, q ∈ stones ↔ q ∈ visited) →
      (∀ q ∈ visited, ∀ r ∈ getAdjacent q, cellAt board r = some color →
        r ∈ visited ∨ r ∈ stack) →
      (∀ a, a ∈ libs ↔
        ∃ q ∈ visited, a ∈ getAdjacent q ∧ cellAt board a = none) →
      stones.Nodup → libs.Nodup →
      (∀ q ∈ visited, Reaches board color p q) →
      (∀ q ∈ stack, Reaches board color p q) →
      (p ∈ visited ∨ p ∈ stack) →
      ((∀ q, q ∈ (groupLoop board color fuel stack visited stones libs).stones ↔
          Reaches board color p q) ∧
       (∀ a, a ∈ (groupLoop board color fuel stack visited stones libs).liberties ↔
          (cellAt board a = none ∧
           ∃ q, Reaches board color p q ∧ a ∈ getAdjacent q)) ∧
       (groupLoop board color fuel stack visited stones libs).stones.Nodup ∧
       (groupLoop board color fuel stack visited stones libs).liberties.Nodup) := by
  intro fuel
  induction fuel with
  | zero =>
    intro stack visited stones libs hfuel hsc hvc hvs hclosed hlibs hnd1 hnd2
      hrv hrs hp
    have hstack : stack = [] := by
      cases stack with
      | nil => rfl
      | cons a l => simp at hfuel
    subst hstack
    have hp' : p ∈ visited := by
      rcases hp with h | h
      · exact h
      · cases h
    have hclosed' : ∀ q ∈ visited, ∀ r ∈ getAdjacent q,
        cellAt board r = some color → r ∈ visited := by
      intro q hq r hr hc
      rcases hclosed q hq r hr hc with h | h
      · exact h
      · cases h
    exact groupLoop_base hvs hclosed' hlibs hnd1 hnd2 hrv hp'
  | succ fuel ih =>
    intro stack visited stones libs hfuel hsc hvc hvs hclosed hlibs hnd1 hnd2
      hrv hrs hp
    cases stack with
    | nil =>
      have hp' : p ∈ visited := by
        rcases hp with h | h
        · exact h
        · cases h
      have hclosed' : ∀ q ∈ visited, ∀ r ∈ getAdjacent q,
          cellAt board r = some color → r ∈ visited := by
        intro q hq r hr hc
        rcases hclosed q hq r hr hc with h | h
        · exact h
        · cases h
      exact groupLoop_base hvs hclosed' hlibs hnd1 hnd2 hrv hp'
    | cons current stack =>
      by_cases hcur : current ∈ visited
      · have hred : groupLoop board color (fuel + 1) (current :: stack)
            visited stones libs =
            groupLoop board color fuel stack visited stones libs := by
          simp only [groupLoop, if_pos hcur]
        rw [hred]
        apply ih stack visited stones libs
        · simp only [List.length_cons] at hfuel; omega
        · exact fun q hq => hsc q (List.mem_cons_of_mem _ hq)
        · exact hvc
        · exact hvs
        · intro q hq r hr hc
          rcases hclosed q hq r hr hc with h | h
          · exact Or.inl h
          · rcases List.mem_cons.mp h with rfl | h2
            · exact Or.inl hcur
            · exact Or.inr h2
        · exact hlibs
        · exact hnd1
        · exact hnd2
        · exact hrv
        · exact fun q hq => hrs q (List.mem_cons_of_mem _ hq)
        · rcases hp with h | h
          · exact Or.inl h
          · rcases List.mem_cons.mp h with rfl | h2
            · exact Or.inl hcur
            · exact Or.inr h2
      · have hccol : cellAt board current = some color :=
          hsc current (List.mem_cons_self _ _)
        have hcall : current ∈ allPoints := hin current hccol
        have hred : groupLoop board color (fuel + 1) (current :: stack)
            visited stones libs =
            groupLoop board color fuel
              (((getAdjacent current).filter
                (fun a => cellAt board a = some color)).reverse ++ stack)
              (current :: visited) (stones ++ [current])
              ((getAdjacent current).foldl
                (fun acc a => if cellAt board a = none then pushLib acc a
                  else acc) libs) := by
          simp only [groupLoop, if_neg hcur]
        rw [hred]
        have hmeasure := unvisitedCount_cons hcall hcur
        apply ih
        · have hplen : (((getAdjacent current).filter
              (fun a => cellAt board a = some color)).reverse).length ≤ 4 :=
            le_trans (by
              rw [List.length_reverse]
              exact List.length_filter_le _ _) (getAdjacent_length_le current)
          simp only [List.length_append, List.length_cons] at hfuel ⊢
          omega
        · intro q hq
          rcases List.mem_append.mp hq with h | h
          · rw [List.mem_reverse, List.mem_filter] at h
            simpa using h.2
          · exact hsc q (List.mem_cons_of_mem _ h)
        · intro q hq
          rcases List.mem_cons.mp hq with rfl | h
          · exact hccol
          · exact hvc q h
        · intro q
          rw [List.mem_append, List.mem_singleton, hvs q, List.mem_cons]
          tauto
        · intro q hq r hr hc
          rcases List.mem_cons.mp hq with rfl | hqv
          · refine Or.inr (List.mem_append.mpr (Or.inl ?_))
            rw [List.mem_reverse, List.mem_filter]
            exact ⟨hr, by simpa using hc⟩
          · rcases hclosed q hqv r hr hc with h | h
            · exact Or.inl (List.mem_cons_of_mem _ h)
            · rcases List.mem_cons.mp h with rfl | h2
              · exact Or.inl (List.mem_cons_self _ _)
              · exact Or.inr (List.mem_append.mpr (Or.inr h2))
        · intro a
          rw [libsFold_mem, hlibs a]
          constructor
          · rintro (⟨q, hqv, hadj, hnone⟩ | ⟨hadj, hnone⟩)
            · exact ⟨q, List.mem_cons_of_mem _ hqv, hadj, hnone⟩
            · exact ⟨current, List.mem_cons_self _ _, hadj, hnone⟩
          · rintro ⟨q, hqv, hadj, hnone⟩
            rcases List.mem_cons.mp hqv with rfl | h
            · exact Or.inr ⟨hadj, hnone⟩
            · exact Or.inl ⟨q, h, hadj, hnone⟩
        · rw [List.nodup_append]
          refine ⟨hnd1, List.nodup_singleton _, ?_⟩
          intro a ha hb
          rw [List.mem_singleton] at hb
          subst hb
          exact hcur ((hvs a).mp ha)
        · exact libsFold_nodup board _ _ hnd2
        · intro q hq
          rcases List.mem_cons.mp hq with rfl | h
          · exact hrs q (List.mem_cons_self _ _)
          · exact hrv q h
        · intro q hq
          rcases List.mem_append.mp hq with h | h
          · rw [List.mem_reverse, List.mem_filter] at h
            exact .tail (hrs current (List.mem_cons_self _ _)) h.1
              (by simpa using h.2)
          · exact hrs q (List.mem_cons_of_mem _ h)
        · rcases hp with h | h
          · exact Or.inl (List.mem_cons_of_mem _ h)
          · rcases List.mem_cons.mp h with rfl | h2
            · exact Or.inl (List.mem_cons_self _ _)
            · exact Or.inr (List.mem_append.mpr (Or.inr h2))

set_option maxRecDepth 8000 in
lemma groupFuel_big : 5 * unvisitedCount [] + 1 ≤ GROUP_FUEL := by decide

lemma getGroup_empty {board : BoardState} {p : Point}
    (hc : cellAt board p = none) : getGroup board p = ⟨[], []⟩ := by
  simp [getGroup, hc]

theorem getGroup_spec {board : BoardState} {p : Point} {color : PlayerColor}
    (hvb : isValidBoard board) (hc : cellAt board p = some color) :
    (∀ q, q ∈ (getGroup board p).stones ↔ Reaches board color p q) ∧
    (∀ a, a ∈ (getGroup board p).liberties ↔
      (cellAt board a = none ∧
       ∃ q, Reaches board color p q ∧ a ∈ getAdjacent q)) ∧
    (getGroup board p).stones.Nodup ∧
    (getGroup board p).liberties.Nodup := by
  have hred : getGroup board p = groupLoop board color GROUP_FUEL [p] [] [] [] := by
    simp [getGroup, hc]
  rw [hred]
  apply groupLoop_correct board color p
    (fun q hq => cellAt_ne_none_mem_allPoints hvb (by rw [hq]; simp))
  · simpa using groupFuel_big
  · intro q hq
    rw [List.mem_singleton] at hq
    exact hq ▸ hc
  · intro q hq; cases hq
  · intro q; simp
  · intro q hq; cases hq
  · intro a; simp
  · exact List.nodup_nil
  · exact List.nodup_nil
  · intro q hq; cases hq
  · intro q hq
    rw [List.mem_singleton] at hq
    subst hq
    exact .refl q
  · exact Or.inr (List.mem_singleton_self p)

/-! ### Claim C7 -/

/-- C7: on a well-formed board, `getGroup` at an occupied point returns
exactly the maximal 4-connected same-color component containing the
point (every stone the same color as the start), with a duplicate-free
liberty list that is exactly the set of empty points orthogonally
adjacent to some stone of the component; membership of both lists is
independent of the starting point within the group; and on an empty
point it returns the empty group with no liberties. -/
theorem getGroup_component_correct (board : BoardState)
    (hvb : isValidBoard board) (p : Point) :
    (cellAt board p = none → getGroup board p = ⟨[], []⟩) ∧
    (∀ color, cellAt board p = some color →
      (∀ q, q ∈ (getGroup board p).stones ↔ Reaches board color p q) ∧
      (∀ q ∈ (getGroup board p).stones, cellAt board q = some color) ∧
      (∀ a, a ∈ (getGroup board p).liberties ↔
        (cellAt board a = none ∧
         ∃ q, Reaches board color p q ∧ a ∈ getAdjacent q)) ∧
      (getGroup board p).stones.Nodup ∧
      (getGroup board p).liberties.Nodup ∧
      (∀ q ∈ (getGroup board p).stones,
        (∀ r, r ∈ (getGroup board q).stones ↔
          r ∈ (getGroup board p).stones) ∧
        (∀ a, a ∈ (getGroup board q).liberties ↔
          a ∈ (getGroup board p).liberties))) := by
  refine ⟨fun hc => getGroup_empty hc, ?_⟩
  intro color hc
  obtain ⟨hst, hlib, hnd1, hnd2⟩ := getGroup_spec hvb hc
  have hin : ∀ r, cellAt board r = some color → r ∈ allPoints :=
    fun r hr => cellAt_ne_none_mem_allPoints hvb (by rw [hr]; simp)
  refine ⟨hst, ?_, hlib, hnd1, hnd2, ?_⟩
  · intro q hq
    exact reaches_color ((hst q).mp hq) hc
  · intro q hq
    have hpq : Reaches board color p q := (hst q).mp hq
    have hcq : cellAt board q = some color := reaches_color hpq hc
    have hqp : Reaches board color q p := reaches_symm hin hc hpq
    obtain ⟨hstq, hlibq, _, _⟩ := getGroup_spec hvb hcq
    have hequiv : ∀ r, Reaches board color q r ↔ Reaches board color p r :=
      fun r => ⟨fun h => reaches_trans hpq h, fun h => reaches_trans hqp h⟩
    constructor
    · intro r
      rw [hstq r, hst r, hequiv r]
    · intro a
      rw [hlibq a, hlib a]
      constructor
      · rintro ⟨hnone, s, hr, hadj⟩
        exact ⟨hnone, s, (hequiv s).mp hr, hadj⟩
      · rintro ⟨hnone, s, hr, hadj⟩
        exact ⟨hnone, s, (hequiv s).mpr hr, hadj⟩

set_option maxRecDepth 40000 in
theorem getGroup_component_correct_witness :
    getGroup (setCell initialState.board ⟨0, 0⟩ (some PlayerColor.black))
      ⟨5, 5⟩ = ⟨[], []⟩ :=
  (getGroup_component_correct
    (setCell initialState.board ⟨0, 0⟩ (some PlayerColor.black))
    (by decide) ⟨5, 5⟩).1 (by decide)

/-! ### Frame lemmas for capture removal -/

lemma setCell_valid {b : BoardState} (hvb : isValidBoard b) (s : Point)
    (c : Cell) : isValidBoard (setCell b s c) := by
  obtain ⟨hlen, hrows⟩ := hvb
  by_cases hy : s.y < b.length
  · refine ⟨by rw [setCell, List.length_set]; exact hlen, ?_⟩
    intro r hr
    rcases List.mem_or_eq_of_mem_set hr with h | h
    · exact hrows r h
    · subst h
      rw [List.length_set]
      rw [List.get?_eq_get hy]
      simp only [Option.getD_some]
      exact hrows _ (b.get_mem s.y hy)
  · rw [setCell, List.set_eq_of_length_le (by omega)]
    exact ⟨hlen, hrows⟩

lemma cellAt_setCell {b : BoardState} (hvb : isValidBoard b) {s : Point}
    (hs : s ∈ allPoints) (c : Cell) (q : Point) :
    cellAt (setCell b s c) q = if q = s then c else cellAt b q := by
  obtain ⟨hlen, hrows⟩ := hvb
  rw [mem_allPoints] at hs
  have hy : s.y < b.length := by omega
  have hrowlen : ((b.get? s.y).getD []).length = BOARD_SIZE := by
    rw [List.get?_eq_get hy]
    simp only [Option.getD_some]
    exact hrows _ (b.get_mem s.y hy)
  by_cases hqy : q.y = s.y
  · rw [cellAt, setCell, hqy, List.get?_set_eq_of_lt _ hy]
    simp only [Option.getD_some]
    by_cases hqx : q.x = s.x
    · have hq : q = s := pointEq.mpr ⟨hqx, hqy⟩
      rw [if_pos hq, hqx,
        List.get?_set_eq_of_lt _ (by rw [hrowlen]; omega)]
      simp
    · have hq : q ≠ s := fun hcon => hqx (by rw [hcon])
      rw [if_neg hq, List.get?_set_ne _ _ (fun hcon => hqx hcon.symm)]
      rw [cellAt, hqy]
  · have hq : q ≠ s := fun hcon => hqy (by rw [hcon])
    rw [if_neg hq, cellAt, setCell,
      List.get?_set_ne _ _ (fun hcon => hqy hcon.symm)]
    rfl

lemma removeFold_spec (pts : List Point) :
    ∀ (b : BoardState), isValidBoard b → (∀ s ∈ pts, s ∈ allPoints) →
      isValidBoard (pts.foldl (fun bb s => setCell bb s none) b) ∧
      (∀ q, cellAt (pts.foldl (fun bb s => setCell bb s none) b) q =
        if q ∈ pts then none else cellAt b q) := by
  induction pts with
  | nil => intro b hvb _; exact ⟨hvb, fun q => by simp⟩
  | cons s pts ih =>
    intro b hvb hmem
    have hs : s ∈ allPoints := hmem s (List.mem_cons_self _ _)
    have hvb' : isValidBoard (setCell b s none) := setCell_valid hvb s none
    obtain ⟨hvr, hcr⟩ := ih (setCell b s none) hvb'
      (fun x hx => hmem x (List.mem_cons_of_mem _ hx))
    refine ⟨by simpa using hvr, ?_⟩
    intro q
    simp only [List.foldl_cons]
    rw [hcr q, cellAt_setCell hvb hs none q]
    by_cases hq1 : q ∈ pts
    · rw [if_pos hq1, if_pos (List.mem_cons_of_mem _ hq1)]
    · rw [if_neg hq1]
      by_cases hq2 : q = s
      · rw [if_pos hq2, if_pos (by rw [hq2]; exact List.mem_cons_self _ _)]
      · rw [if_neg hq2, if_neg (by
          rw [List.mem_cons]
          rintro (h | h)
          · exact hq2 h
          · exact hq1 h)]

lemma changedCount_refl (orig : BoardState) : changedCount orig orig = 0 := by
  unfold changedCount
  rw [List.filter_eq_nil_iff.mpr (by intro a _; simp)]
  rfl

lemma filter_or_disjoint (p r : Point → Prop) [DecidablePred p]
    [DecidablePred r] :
    ∀ (l : List Point), (∀ x ∈ l, ¬ (p x ∧ r x)) →
      (l.filter (fun x => decide (p x ∨ r x))).length =
        (l.filter (fun x => decide (p x))).length +
        (l.filter (fun x => decide (r x))).length := by
  intro l
  induction l with
  | nil => intro _; simp
  | cons x xs ih =>
    intro hdisj
    have hxs := ih (fun y hy => hdisj y (List.mem_cons_of_mem _ hy))
    have hx := hdisj x (List.mem_cons_self _ _)
    simp only [List.filter_cons]
    by_cases hp : p x
    · have hr : ¬ r x := fun hrx => hx ⟨hp, hrx⟩
      rw [if_pos (by simp [hp]), if_pos (by simpa using hp),
        if_neg (by simpa using hr)]
      simp only [List.length_cons]
      omega
    · by_cases hr : r x
      · rw [if_pos (by simp [hr]), if_neg (by simpa using hp),
          if_pos (by simpa using hr)]
        simp only [List.length_cons]
        omega
      · rw [if_neg (by simp [hp, hr]), if_neg (by simpa using hp),
          if_neg (by simpa using hr)]
        exact hxs

lemma filter_mem_length {l pts : List Point} (hndl : l.Nodup)
    (hndp : pts.Nodup) (hsub : ∀ x ∈ pts, x ∈ l) :
    (l.filter (fun x => decide (x ∈ pts))).length = pts.length := by
  have hperm : List.Perm (l.filter (fun x => decide (x ∈ pts))) pts := by
    rw [List.perm_ext_iff_of_nodup (hndl.filter _) hndp]
    intro a
    rw [List.mem_filter]
    simp only [decide_eq_true_eq]
    exact ⟨fun h => h.2, fun h => ⟨hsub a h, h⟩⟩
  exact hperm.length_eq

lemma changedCount_step {b bb orig : BoardState} {pts : List Point}
    (hbb : ∀ q, cellAt bb q = if q ∈ pts then none else cellAt b q)
    (hndp : pts.Nodup) (hsub : ∀ x ∈ pts, x ∈ allPoints)
    (hunch : ∀ q ∈ pts, cellAt b q = cellAt orig q)
    (hstone : ∀ q ∈ pts, cellAt orig q ≠ none) :
    changedCount bb orig = changedCount b orig + pts.length := by
  unfold changedCount
  have hcongr : ∀ q ∈ allPoints,
      (decide (cellAt bb q ≠ cellAt orig q)) =
        (decide ((cellAt b q ≠ cellAt orig q) ∨ q ∈ pts)) := by
    intro q _
    rw [decide_eq_decide]
    by_cases hq : q ∈ pts
    · rw [hbb, if_pos hq]
      have h1 : cellAt orig q ≠ none := hstone q hq
      constructor
      · intro _; exact Or.inr hq
      · intro _; exact fun hcon => h1 hcon.symm
    · rw [hbb, if_neg hq]
      constructor
      · exact fun h => Or.inl h
      · rintro (h | h)
        · exact h
        · exact absurd h hq
  rw [List.filter_congr hcongr,
    filter_or_disjoint (fun q => cellAt b q ≠ cellAt orig q)
      (fun q => q ∈ pts) allPoints
      (by
        rintro x _ ⟨hchg, hmem⟩
        exact hchg (hunch x hmem)),
    filter_mem_length allPoints_nodup hndp hsub]

lemma capturedByList_closed {board : BoardState} {opp : PlayerColor}
    {done : List Point} {q r : Point}
    (hq : capturedByList board opp done q) (hadj : r ∈ getAdjacent q)
    (hc : cellAt board r = some opp) :
    capturedByList board opp done r := by
  obtain ⟨a, ha, hca, hnl, hr⟩ := hq
  exact ⟨a, ha, hca, hnl, .tail hr hadj hc⟩

lemma capturedByList_color {board : BoardState} {opp : PlayerColor}
    {done : List Point} {q : Point}
    (hq : capturedByList board opp done q) :
    cellAt board q = some opp := by
  obtain ⟨a, _, hca, _, hr⟩ := hq
  exact reaches_color hr hca

/-- Frame lemma: on a board `b` that agrees with `board` except that
the capture-closed set `R` of opponent stones has been emptied,
reachability from a surviving opponent stone is unchanged. -/
lemma reaches_frame {board b : BoardState} {opp : PlayerColor}
    {R : Point → Prop}
    (hin : ∀ q, cellAt board q = some opp → q ∈ allPoints)
    (hbR : ∀ q, R q → cellAt b q = none)
    (hbN : ∀ q, ¬ R q → cellAt b q = cellAt board q)
    (hRcol : ∀ q, R q → cellAt board q = some opp)
    (hRclosed : ∀ q r, R q → r ∈ getAdjacent q →
      cellAt board r = some opp → R r)
    {a : Point} (ha : cellAt board a = some opp) (hna : ¬ R a) :
    (∀ q, Reaches board opp a q → (Reaches b opp a q ∧ ¬ R q)) ∧
    (∀ q, Reaches b opp a q → Reaches board opp a q) := by
  constructor
  · intro q h
    induction h with
    | refl => exact ⟨.refl a, hna⟩
    | tail h1 hadj hc ih =>
      rename_i qq rr
      obtain ⟨hb1, hnq⟩ := ih
      have hqcol := reaches_color h1 ha
      have hnr : ¬ R rr := by
        intro hR
        exact hnq (hRclosed rr qq hR
          ((adj_symm (hin _ hqcol) (hin _ hc)).mp hadj) hqcol)
      exact ⟨.tail hb1 hadj (by rw [hbN _ hnr]; exact hc), hnr⟩
  · intro q h
    induction h with
    | refl => exact .refl a
    | tail h1 hadj hc ih =>
      rename_i qq rr
      have hnr : ¬ R rr := by
        intro hR
        rw [hbR _ hR] at hc
        cases hc
      rw [hbN _ hnr] at hc
      exact .tail ih hadj hc

/-- Frame lemma for liberties: a point adjacent to a surviving
component reads the same on the reduced board. -/
lemma liberty_frame {board b : BoardState} {opp : PlayerColor}
    {R : Point → Prop}
    (hin : ∀ q, cellAt board q = some opp → q ∈ allPoints)
    (hbR : ∀ q, R q → cellAt b q = none)
    (hbN : ∀ q, ¬ R q → cellAt b q = cellAt board q)
    (hRcol : ∀ q, R q → cellAt board q = some opp)
    (hRclosed : ∀ q r, R q → r ∈ getAdjacent q →
      cellAt board r = some opp → R r)
    {a : Point} (ha : cellAt board a = some opp) (hna : ¬ R a)
    {q l : Point} (hq : Reaches board opp a q) (hl : l ∈ getAdjacent q) :
    cellAt b l = cellAt board l := by
  have hnq := ((reaches_frame hin hbR hbN hRcol hRclosed ha hna).1 q hq).2
  have hqcol := reaches_color hq ha
  have hnl : ¬ R l := by
    intro hR
    exact hnq (hRclosed l q hR
      ((adj_symm (hin _ hqcol) (hin _ (hRcol _ hR))).mp hl) hqcol)
  exact hbN _ hnl

lemma checkCaptures_eq_foldl (board : BoardState) (lastMove : Point)
    (player : PlayerColor) :
    checkCaptures board lastMove player =
      (getAdjacent lastMove).foldl (captureStep player.opponent)
        (board, 0) := rfl

lemma capturedByList_append_singleton {board : BoardState}
    {opp : PlayerColor} {done : List Point} {a q : Point} :
    capturedByList board opp (done ++ [a]) q ↔
      (capturedByList board opp done q ∨
       (cellAt board a = some opp ∧ compNoLiberty board opp a ∧
        Reaches board opp a q)) := by
  unfold capturedByList
  constructor
  · rintro ⟨a', ha', hc', hn', hr'⟩
    rcases List.mem_append.mp ha' with h | h
    · exact Or.inl ⟨a', h, hc', hn', hr'⟩
    · rw [List.mem_singleton] at h
      subst h
      exact Or.inr ⟨hc', hn', hr'⟩
  · rintro (⟨a', h, hc', hn', hr'⟩ | ⟨hc', hn', hr'⟩)
    · exact ⟨a', List.mem_append.mpr (Or.inl h), hc', hn', hr'⟩
    · exact ⟨a, List.mem_append.mpr (Or.inr (List.mem_singleton_self a)),
        hc', hn', hr'⟩

lemma checkCaptures_loop (board : BoardState) (hvb : isValidBoard board)
    (player : PlayerColor) :
    ∀ (todo : List Point) (b : BoardState) (n : Nat) (done : List Point),
      isValidBoard b →
      (∀ q, capturedByList board player.opponent done q →
        cellAt b q = none) →
      (∀ q, ¬ capturedByList board player.opponent done q →
        cellAt b q = cellAt board q) →
      n = changedCount b board →
      isValidBoard (todo.foldl (captureStep player.opponent) (b, n)).1 ∧
      (∀ q, capturedByList board player.opponent (done ++ todo) q →
        cellAt (todo.foldl (captureStep player.opponent) (b, n)).1 q = none) ∧
      (∀ q, ¬ capturedByList board player.opponent (done ++ todo) q →
        cellAt (todo.foldl (captureStep player.opponent) (b, n)).1 q =
          cellAt board q) ∧
      (todo.foldl (captureStep player.opponent) (b, n)).2 =
        changedCount
          (todo.foldl (captureStep player.opponent) (b, n)).1 board := by
  have hinopp : ∀ q, cellAt board q = some player.opponent →
      q ∈ allPoints :=
    fun q hq => cellAt_ne_none_mem_allPoints hvb (by rw [hq]; simp)
  intro todo
  induction todo with
  | nil =>
    intro b n done hvbb hbR hbN hn
    simp only [List.foldl_nil, List.append_nil]
    exact ⟨hvbb, hbR, hbN, hn⟩
  | cons a todo ih =>
    intro b n done hvbb hbR hbN hn
    have hassoc : done ++ a :: todo = (done ++ [a]) ++ todo := by simp
    rw [hassoc]
    simp only [List.foldl_cons]
    by_cases hcond : cellAt b a = some player.opponent
    · have hna : ¬ capturedByList board player.opponent done a := by
        intro hR
        rw [hbR a hR] at hcond
        cases hcond
      have hba : cellAt board a = some player.opponent := by
        rw [← hbN a hna]; exact hcond
      have hframe := reaches_frame hinopp hbR hbN
        (fun q hq => capturedByList_color hq)
        (fun q r hq hadj hc => capturedByList_closed hq hadj hc) hba hna
      obtain ⟨hgst, hglib, hgnd1, hgnd2⟩ := getGroup_spec hvbb hcond
      have hstones : ∀ q, q ∈ (getGroup b a).stones ↔
          Reaches board player.opponent a q :=
        fun q => (hgst q).trans ⟨hframe.2 q, fun h => (hframe.1 q h).1⟩
      have hlibs : ∀ l, l ∈ (getGroup b a).liberties ↔
          (cellAt board l = none ∧
           ∃ q, Reaches board player.opponent a q ∧ l ∈ getAdjacent q) := by
        intro l
        rw [hglib l]
        constructor
        · rintro ⟨hnone, q, hr, hadj⟩
          have hrb := hframe.2 q hr
          have heq := liberty_frame hinopp hbR hbN
            (fun x hx => capturedByList_color hx)
            (fun x r hx hadj2 hc => capturedByList_closed hx hadj2 hc)
            hba hna hrb hadj
          exact ⟨by rw [← heq]; exact hnone, q, hrb, hadj⟩
        · rintro ⟨hnone, q, hr, hadj⟩
          have hbq := (hframe.1 q hr).1
          have heq := liberty_frame hinopp hbR hbN
            (fun x hx => capturedByList_color hx)
            (fun x r hx hadj2 hc => capturedByList_closed hx hadj2 hc)
            hba hna hr hadj
          exact ⟨by rw [heq]; exact hnone, q, hbq, hadj⟩
      by_cases hlen : (getGroup b a).liberties.length = 0
      · have hred : captureStep player.opponent (b, n) a =
            ((getGroup b a).stones.foldl (fun bb s => setCell bb s none) b,
             n + (getGroup b a).stones.length) := by
          unfold captureStep
          rw [if_pos hcond, if_pos hlen]
        rw [hred]
        have hnil : (getGroup b a).liberties = [] :=
          List.length_eq_zero.mp hlen
        have hnolib : compNoLiberty board player.opponent a := by
          rintro ⟨l, q, hr, hadj, hnone⟩
          have hmem : l ∈ (getGroup b a).liberties :=
            (hlibs l).mpr ⟨hnone, q, hr, hadj⟩
          rw [hnil] at hmem
          cases hmem
        have hsubstones : ∀ s ∈ (getGroup b a).stones, s ∈ allPoints :=
          fun s hs => hinopp s (reaches_color ((hstones s).mp hs) hba)
        obtain ⟨hvb', hcell'⟩ :=
          removeFold_spec (getGroup b a).stones b hvbb hsubstones
        have hR' : ∀ q, capturedByList board player.opponent (done ++ [a]) q ↔
            (capturedByList board player.opponent done q ∨
             Reaches board player.opponent a q) := by
          intro q
          rw [capturedByList_append_singleton]
          constructor
          · rintro (h | ⟨_, _, hr⟩)
            · exact Or.inl h
            · exact Or.inr hr
          · rintro (h | hr)
            · exact Or.inl h
            · exact Or.inr ⟨hba, hnolib, hr⟩
        apply ih _ _ (done ++ [a]) hvb'
        · intro q hq
          rw [hR' q] at hq
          rw [hcell' q]
          rcases hq with h | h
          · by_cases hmem : q ∈ (getGroup b a).stones
            · rw [if_pos hmem]
            · rw [if_neg hmem]
              exact hbR q h
          · rw [if_pos ((hstones q).mpr h)]
        · intro q hq
          rw [hR' q] at hq
          push_neg at hq
          rw [hcell' q, if_neg (fun hmem => hq.2 ((hstones q).mp hmem))]
          exact hbN q hq.1
        · have hstep := changedCount_step hcell' hgnd1 hsubstones
            (fun q hq => hbN q ((hframe.1 q ((hstones q).mp hq)).2))
            (fun q hq => by
              rw [reaches_color ((hstones q).mp hq) hba]
              simp)
          rw [hstep, hn]
      · have hred : captureStep player.opponent (b, n) a = (b, n) := by
          unfold captureStep
          rw [if_pos hcond, if_neg hlen]
        rw [hred]
        have hne : (getGroup b a).liberties ≠ [] :=
          fun hcon => hlen (by rw [hcon]; rfl)
        obtain ⟨l, hl⟩ := List.exists_mem_of_ne_nil _ hne
        obtain ⟨hnone, q0, hr0, hadj0⟩ := (hlibs l).mp hl
        have hnotnolib : ¬ compNoLiberty board player.opponent a :=
          fun hno => hno ⟨l, q0, hr0, hadj0, hnone⟩
        have hR' : ∀ q, capturedByList board player.opponent (done ++ [a]) q ↔
            capturedByList board player.opponent done q := by
          intro q
          rw [capturedByList_append_singleton]
          constructor
          · rintro (h | ⟨_, hno, _⟩)
            · exact h
            · exact absurd hno hnotnolib
          · exact fun h => Or.inl h
        apply ih _ _ (done ++ [a]) hvbb
        · intro q hq
          exact hbR q ((hR' q).mp hq)
        · intro q hq
          exact hbN q (fun h => hq ((hR' q).mpr h))
        · exact hn
    · have hred : captureStep player.opponent (b, n) a = (b, n) := by
        unfold captureStep
        rw [if_neg hcond]
      rw [hred]
      have hR' : ∀ q, capturedByList board player.opponent (done ++ [a]) q →
          capturedByList board player.opponent done q := by
        intro q hq
        rw [capturedByList_append_singleton] at hq
        rcases hq with h | ⟨hba, hno, hr⟩
        · exact h
        · have hRa : capturedByList board player.opponent done a := by
            by_contra hnRa
            rw [hbN a hnRa] at hcond
            exact hcond hba
          obtain ⟨a0, ha0, hc0, hn0, hr0⟩ := hRa
          exact ⟨a0, ha0, hc0, hn0, reaches_trans hr0 hr⟩
      apply ih _ _ (done ++ [a]) hvbb
      · intro q hq
        exact hbR q (hR' q hq)
      · intro q hq
        refine hbN q (fun h => hq ?_)
        rw [capturedByList_append_singleton]
        exact Or.inl h
      · exact hn

/-- Full specification of `checkCaptures` (shared helper): the result
board is well-formed, captured cells are emptied, all other cells are
preserved, and the returned count is the number of emptied cells. -/
lemma checkCaptures_spec (board : BoardState) (placedAt : Point)
    (player : PlayerColor) (hvb : isValidBoard board) :
    isValidBoard (checkCaptures board placedAt player).1 ∧
    (∀ q, capturedBy board placedAt player q →
      cellAt (checkCaptures board placedAt player).1 q = none) ∧
    (∀ q, ¬ capturedBy board placedAt player q →
      cellAt (checkCaptures board placedAt player).1 q = cellAt board q) ∧
    (checkCaptures board placedAt player).2 =
      (allPoints.filter (fun q =>
        decide (cellAt (checkCaptures board placedAt player).1 q ≠
          cellAt board q))).length := by
  rw [checkCaptures_eq_foldl]
  have hloop := checkCaptures_loop board hvb player (getAdjacent placedAt)
    board 0 []
    hvb
    (by
      rintro q ⟨a, ha, _⟩
      cases ha)
    (fun q _ => rfl)
    (changedCount_refl board).symm
  simp only [List.nil_append] at hloop
  exact hloop

/-! ### Claim C6 -/

/-- C6: on a well-formed board where a `player` stone has just been
placed, capture resolution empties exactly the cells of the
opponent-colored components that are adjacent to the placed stone and
have no liberties, leaves every other cell unchanged (in particular any
opponent group not adjacent to the placed stone), and reports a capture
count equal to the number of cells it emptied. -/
theorem checkCaptures_correct (board : BoardState) (placedAt : Point)
    (player : PlayerColor) (hvb : isValidBoard board)
    (hplaced : cellAt board placedAt = some player) :
    (∀ q, capturedBy board placedAt player q →
      cellAt (checkCaptures board placedAt player).1 q = none) ∧
    (∀ q, ¬ capturedBy board placedAt player q →
      cellAt (checkCaptures board placedAt player).1 q = cellAt board q) ∧
    (checkCaptures board placedAt player).2 =
      (allPoints.filter (fun q =>
        decide (cellAt (checkCaptures board placedAt player).1 q ≠
          cellAt board q))).length :=
  (checkCaptures_spec board placedAt player hvb).2

set_option maxRecDepth 100000 in
theorem checkCaptures_correct_witness :
    (checkCaptures captureExampleBoard ⟨0, 0⟩ PlayerColor.black).2 =
      (allPoints.filter (fun q =>
        decide (cellAt
          (checkCaptures captureExampleBoard ⟨0, 0⟩ PlayerColor.black).1 q ≠
          cellAt captureExampleBoard q))).length :=
  (checkCaptures_correct captureExampleBoard ⟨0, 0⟩ PlayerColor.black
    (by decide) (by decide)).2.2

/-! ### Claim C5 -/

lemma isValidMove_empty_unfold (board : BoardState) (p : Point)
    (player : PlayerColor) (history : List (List Char))
    (he : cellAt board p = none) :
    isValidMove board p player history =
      (if (getGroup (checkCaptures (setCell board p (some player)) p
            player).1 p).liberties.length = 0
       then .invalid .suicide
       else if history.getLast? = some (encodeBoard
           (checkCaptures (setCell board p (some player)) p player).1)
         then .invalid .koViolation
         else .legal
           (checkCaptures (setCell board p (some player)) p player).1
           (checkCaptures (setCell board p (some player)) p player).2) := by
  unfold isValidMove
  rw [if_neg (fun hne => hne he)]

set_option maxRecDepth 400000 in
/-- C5: playing on an empty point is rejected as suicide exactly when,
after tentatively placing the stone and resolving opponent captures,
the component of the placed stone has no liberty; in particular the
single-stone capture-and-recapture on a 1-liberty point
(`snapbackBefore`, black plays `(0,0)`) is legal and captures one
stone. -/
theorem isValidMove_suicide_iff (board : BoardState) (p : Point)
    (player : PlayerColor) (history : List (List Char))
    (hvb : isValidBoard board) (hp : p ∈ allPoints)
    (he : cellAt board p = none) :
    (isValidMove board p player history = .invalid .suicide ↔
      compNoLiberty
        (checkCaptures (setCell board p (some player)) p player).1
        player p) ∧
    isValidMove snapbackBefore ⟨0, 0⟩ PlayerColor.black [] =
      .legal snapbackAfter 1 := by
  refine ⟨?_, by decide⟩
  rw [isValidMove_empty_unfold board p player history he]
  have hplacedvalid := setCell_valid hvb p (some player)
  have hplacedcell : cellAt (setCell board p (some player)) p =
      some player := by
    rw [cellAt_setCell hvb hp]
    simp
  have hspec := checkCaptures_spec (setCell board p (some player)) p
    player hplacedvalid
  have hnotcap : ¬ capturedBy (setCell board p (some player)) p player p := by
    intro hc
    have hcol := capturedByList_color hc
    rw [hplacedcell] at hcol
    cases player <;> simp [PlayerColor.opponent] at hcol
  have hrescell : cellAt
      (checkCaptures (setCell board p (some player)) p player).1 p =
      some player := by
    rw [hspec.2.2.1 p hnotcap]
    exact hplacedcell
  obtain ⟨hst, hlib, _, _⟩ := getGroup_spec hspec.1 hrescell
  by_cases hlen : (getGroup
      (checkCaptures (setCell board p (some player)) p player).1
      p).liberties.length = 0
  · rw [if_pos hlen]
    constructor
    · intro _
      rintro ⟨l, q, hr, hadj, hnone⟩
      have hmem : l ∈ (getGroup
          (checkCaptures (setCell board p (some player)) p player).1
          p).liberties := (hlib l).mpr ⟨hnone, q, hr, hadj⟩
      rw [List.length_eq_zero.mp hlen] at hmem
      cases hmem
    · intro _; rfl
  · rw [if_neg hlen]
    have hne : ¬ compNoLiberty
        (checkCaptures (setCell board p (some player)) p player).1
        player p := by
      have hnenil : (getGroup
          (checkCaptures (setCell board p (some player)) p player).1
          p).liberties ≠ [] := fun hcon => hlen (by rw [hcon]; rfl)
      obtain ⟨l, hl⟩ := List.exists_mem_of_ne_nil _ hnenil
      obtain ⟨hnone, q, hr, hadj⟩ := (hlib l).mp hl
      exact fun hno => hno ⟨l, q, hr, hadj, hnone⟩
    constructor
    · intro hcon
      by_cases hk : history.getLast? = some (encodeBoard
          (checkCaptures (setCell board p (some player)) p player).1)
      · rw [if_pos hk] at hcon
        simp at hcon
      · rw [if_neg hk] at hcon
        simp at hcon
    · intro hno
      exact absurd hno hne

set_option maxRecDepth 400000 in
theorem isValidMove_suicide_iff_witness :
    compNoLiberty
      (checkCaptures (setCell (setCell (setCell initialState.board
        ⟨1, 0⟩ (some .white)) ⟨0, 1⟩ (some .white)) ⟨0, 0⟩
        (some PlayerColor.black)) ⟨0, 0⟩ PlayerColor.black).1
      PlayerColor.black ⟨0, 0⟩ :=
  (isValidMove_suicide_iff
    (setCell (setCell initialState.board ⟨1, 0⟩ (some .white)) ⟨0, 1⟩
      (some .white))
    ⟨0, 0⟩ PlayerColor.black [] (by decide) (by decide) (by decide)).1.mp
    (by decide)

/-! ### Claim C4 -/

/-- C4: for a move that passes the occupancy and suicide checks, the ko
error is raised if and only if the board resulting from placing the
stone and resolving captures is identical (as a board, via the
injective JSON encoding) to the immediately preceding board in the
history; when the result differs from that last entry the move is
accepted — in particular a result matching only an older,
non-immediately-prior history entry is accepted. -/
theorem isValidMove_ko_iff (board : BoardState) (p : Point)
    (player : PlayerColor) (bs : List BoardState)
    (he : cellAt board p = none)
    (hs : (getGroup (checkCaptures (setCell board p (some player)) p
        player).1 p).liberties.length ≠ 0) :
    (isValidMove board p player (bs.map encodeBoard) =
        .invalid .koViolation ↔
      bs.getLast? =
        some (checkCaptures (setCell board p (some player)) p player).1) ∧
    (bs.getLast? ≠
        some (checkCaptures (setCell board p (some player)) p player).1 →
      isValidMove board p player (bs.map encodeBoard) =
        .legal (checkCaptures (setCell board p (some player)) p player).1
          (checkCaptures (setCell board p (some player)) p player).2) := by
  rw [isValidMove_empty_unfold board p player (bs.map encodeBoard) he,
    if_neg hs]
  have hkey : ((bs.map encodeBoard).getLast? = some (encodeBoard
      (checkCaptures (setCell board p (some player)) p player).1)) ↔
      bs.getLast? =
        some (checkCaptures (setCell board p (some player)) p player).1 := by
    rw [List.getLast?_map]
    cases hbs : bs.getLast? with
    | none => simp
    | some b0 =>
      simp only [Option.map_some', Option.some.injEq]
      exact ⟨fun h => encodeBoard_injective h, fun h => by rw [h]⟩
  constructor
  · by_cases hk : (bs.map encodeBoard).getLast? = some (encodeBoard
        (checkCaptures (setCell board p (some player)) p player).1)
    · rw [if_pos hk]
      simp only [true_iff]
      exact hkey.mp hk
    · rw [if_neg hk]
      constructor
      · intro hcon; simp at hcon
      · intro h; exact absurd (hkey.mpr h) hk
  · intro hne
    rw [if_neg (fun hk => hne (hkey.mp hk))]

set_option maxRecDepth 400000 in
theorem isValidMove_ko_iff_witness :
    isValidMove initialState.board ⟨3, 3⟩ PlayerColor.black
      ([setCell initialState.board ⟨3, 3⟩
        (some PlayerColor.black)].map encodeBoard) =
      .invalid .koViolation :=
  (isValidMove_ko_iff initialState.board ⟨3, 3⟩ PlayerColor.black
    [setCell initialState.board ⟨3, 3⟩ (some PlayerColor.black)]
    (by decide) (by decide)).1.mpr (by decide)
